import Mathlib

/-!
Verification development for the `tap` terminal browser.

The definitions below are a shallow embedding of the two source files
`src/fuzzy/fuzzy_view.rs` and `src/app.rs`.  Strings manipulated byte-wise by
the Rust code are modelled as `List Char` together with explicit UTF-8 byte
lengths (`Char.utf8Size`); byte offsets that Rust would panic on (slicing a
string off a char boundary, indexing a vector out of bounds, `usize`
underflow, division by zero, a failed `expect`) are modelled as `none` /
dedicated fault constructors.  External collaborators (the skim fuzzy scorer,
the catalog builder `create_items`, the player factory, the random number
generator) are parameters of the embedded operations, matching §4.4/§6 of the
specification.
-/

/-- UTF-8 byte length of a piece of text modelled as a list of chars. -/
def byteLen (q : List Char) : Nat := (q.map Char.utf8Size).sum

/-- Chars making up the first `n` bytes of `q`; `none` when `n` is not on a
char boundary (Rust string slicing `&q[0..n]` would panic there). -/
def takeBytes : List Char → Nat → Option (List Char)
  | _, 0 => some []
  | [], _ + 1 => none
  | c :: cs, n + 1 =>
    if c.utf8Size ≤ n + 1 then (takeBytes cs (n + 1 - c.utf8Size)).map (fun t => c :: t)
    else none

/-- Chars remaining after the first `n` bytes of `q`; `none` when `n` is not
on a char boundary (Rust string slicing `&q[n..]` would panic there). -/
def dropBytes : List Char → Nat → Option (List Char)
  | l, 0 => some l
  | [], _ + 1 => none
  | c :: cs, n + 1 =>
    if c.utf8Size ≤ n + 1 then dropBytes cs (n + 1 - c.utf8Size)
    else none

/-- The byte offset `n` lies on a char (code point) boundary of `q`. -/
def charBoundary (q : List Char) (n : Nat) : Prop := (takeBytes q n).isSome

instance (q : List Char) (n : Nat) : Decidable (charBoundary q n) := by
  unfold charBoundary; infer_instance

/-- Fuel-indexed helper for grapheme segmentation; the fuel only serves to
make the recursion structural and is always at least the list length at every
call, so the middle (fuel-exhausted) branch is never taken. -/
def graphemesAux (ext : Char → Bool) : Nat → List Char → List (List Char)
  | _, [] => []
  | 0, _ :: _ => []
  | k + 1, c :: cs =>
    (c :: cs.takeWhile ext) :: graphemesAux ext k (cs.dropWhile ext)

/-- Grapheme-cluster segmentation, embedding the `unicode_segmentation`
crate's `graphemes(true)` iterator for texts built from base characters and
extending (combining) characters: a cluster is one char followed by the
maximal run of chars satisfying the `ext` (Grapheme_Extend) predicate. -/
def graphemes (ext : Char → Bool) (q : List Char) : List (List Char) :=
  graphemesAux ext q.length q

/-- The fuel is irrelevant as long as it covers the list length. -/
theorem graphemesAux_congr (ext : Char → Bool) :
    ∀ k1 k2 q, q.length ≤ k1 → q.length ≤ k2 →
      graphemesAux ext k1 q = graphemesAux ext k2 q := by
  intro k1
  induction k1 with
  | zero =>
    intro k2 q h1 _
    have : q = [] := List.length_eq_zero.mp (Nat.le_zero.mp h1)
    subst this
    cases k2 <;> rfl
  | succ k ih =>
    intro k2 q h1 h2
    cases q with
    | nil => cases k2 <;> rfl
    | cons c cs =>
      cases k2 with
      | zero => simp at h2
      | succ k2 =>
        show (c :: cs.takeWhile ext) :: graphemesAux ext k (cs.dropWhile ext)
            = (c :: cs.takeWhile ext) :: graphemesAux ext k2 (cs.dropWhile ext)
        have hlen := (List.dropWhile_sublist (l := cs) ext).length_le
        simp only [List.length_cons] at h1 h2
        exact congrArg _ (ih k2 _ (by omega) (by omega))

/-- Unfolding equation: the first cluster is the head char with the following
run of extend chars, and segmentation continues past them. -/
theorem graphemes_cons (ext : Char → Bool) (c : Char) (cs : List Char) :
    graphemes ext (c :: cs) =
      (c :: cs.takeWhile ext) :: graphemes ext (cs.dropWhile ext) := by
  show (c :: cs.takeWhile ext) :: graphemesAux ext cs.length (cs.dropWhile ext)
      = (c :: cs.takeWhile ext) :: graphemesAux ext (cs.dropWhile ext).length (cs.dropWhile ext)
  exact congrArg _ (graphemesAux_congr ext cs.length (cs.dropWhile ext).length _
    ((List.dropWhile_sublist (l := cs) ext).length_le) le_rfl)

/-- Byte offsets of grapheme-cluster boundaries of `q` (cluster starts plus
the end of the text). -/
def graphemeOffsets (ext : Char → Bool) (q : List Char) : List Nat :=
  (List.range ((graphemes ext q).length + 1)).map
    (fun k => byteLen (((graphemes ext q).take k).flatten))

/-- The byte offset `n` lies on a grapheme-cluster boundary of `q`. -/
def graphemeBoundary (ext : Char → Bool) (q : List Char) (n : Nat) : Prop :=
  n ∈ graphemeOffsets ext q

instance (ext : Char → Bool) (q : List Char) (n : Nat) :
    Decidable (graphemeBoundary ext q n) := by
  unfold graphemeBoundary; infer_instance

/-- Catalog item, from `FuzzyItem` as used by `fuzzy_view.rs`: immutable
`display`/`path`/`has_audio`/`child_count` plus the navigator-owned mutable
`weight` (i64) and matched `indices`. -/
structure FuzzyItem where
  display : List Char
  path : String
  has_audio : Bool
  child_count : Nat
  weight : Int
  indices : List Nat
deriving DecidableEq

/-- External fuzzy scorer contract (§4.4): `SkimMatcherV2::fuzzy_indices`
applied to a display label and the query pattern. -/
abbrev Scorer := List Char → List Char → Option (Int × List Nat)

/-- Navigator state, from `struct FuzzyView` (fuzzy_view.rs lines 20-38). -/
structure FuzzyView where
  query : List Char
  cursor : Nat
  selected : Nat
  offset : Nat
  matchCount : Nat
  items : List FuzzyItem
  available_y : Nat
  size : Nat × Nat
deriving DecidableEq

namespace FuzzyView

/-- Constructor `FuzzyView::new` (lines 41-52). -/
def new (items : List FuzzyItem) : FuzzyView :=
  { query := [], cursor := 0, selected := 0, offset := 0,
    matchCount := items.length, items := items, available_y := 0, size := (0, 0) }

/-- Method `layout` of the `View` impl (lines 316-319): store the size and
derive the number of list rows. -/
def layout (size : Nat × Nat) (s : FuzzyView) : FuzzyView :=
  { s with size := size, available_y := if 2 < size.2 then size.2 - 3 else 0 }

/-- Method `move_down` (lines 68-76). -/
def move_down (s : FuzzyView) : FuzzyView :=
  if s.selected = 0 then s
  else
    { s with
      offset := if s.selected = s.offset then s.offset - 1 else s.offset,
      selected := s.selected - 1 }

/-- Method `move_up` (lines 79-87).  The `usize` subtractions
`matches - 1` (when `matches = 0`) and `selected - offset` (when
`offset > selected`) underflow in Rust; those inputs are modelled as `none`. -/
def move_up (s : FuzzyView) : Option FuzzyView :=
  if s.matchCount = 0 then none
  else if s.selected = s.matchCount - 1 then some s
  else if s.selected < s.offset then none
  else
    some { s with
      offset := if s.available_y ≤ s.selected - s.offset then s.offset + 1 else s.offset,
      selected := s.selected + 1 }

/-- Method `page_up` (lines 90-103). -/
def page_up (s : FuzzyView) : FuzzyView :=
  if s.matchCount = 0 then s
  else if s.selected + s.available_y ≤ s.matchCount - 1 then
    { s with offset := s.offset + s.available_y, selected := s.selected + s.available_y }
  else
    { s with selected := s.matchCount - 1,
             offset := if s.offset + s.available_y < s.matchCount - 1 then
                 s.offset + s.available_y else s.offset }

/-- Method `page_down` (lines 106-120). -/
def page_down (s : FuzzyView) : FuzzyView :=
  if s.matchCount = 0 then s
  else
    { s with
      selected := if s.available_y < s.selected then s.selected - s.available_y else 0,
      offset := if s.available_y < s.offset then s.offset - s.available_y else 0 }

/-- Each item scored against the pattern, from the loop body of
`fuzzy_match` (lines 229-238). -/
def scoreItem (f : Scorer) (pattern : List Char) (it : FuzzyItem) : FuzzyItem :=
  match f it.display pattern with
  | some (w, idx) => { it with weight := w, indices := idx }
  | none => { it with weight := 0, indices := [] }

/-- Method `fuzzy_match` (lines 226-240): rescore every item in place and
return the number of matched items. -/
def fuzzy_match (f : Scorer) (pattern : List Char) (items : List FuzzyItem) :
    List FuzzyItem × Nat :=
  (items.map (scoreItem f pattern),
   items.countP (fun it => (f it.display pattern).isSome))

/-- Insertion step of the stable descending-by-weight sort: the incoming
item passes earlier items of strictly larger weight and stops in front of the
first item of weight no larger than its own. -/
def insertItem (x : FuzzyItem) : List FuzzyItem → List FuzzyItem
  | [] => [x]
  | y :: ys => if x.weight < y.weight then y :: insertItem x ys else x :: y :: ys

/-- Method `sort` (lines 222-224): `Vec::sort_by(|a, b| b.weight.cmp(&a.weight))`
is a stable sort by weight descending; a stable sort's output is uniquely
determined by the comparator and stability, so this stable insertion sort is
extensionally the same function. -/
def sortItems : List FuzzyItem → List FuzzyItem
  | [] => []
  | x :: xs => insertItem x (sortItems xs)

/-- Method `update_list` (lines 203-219). -/
def update_list (f : Scorer) (pattern : List Char) (s : FuzzyView) : FuzzyView :=
  if s.query = [] then
    { s with
      items := s.items.map (fun it => { it with weight := 1, indices := [] }),
      matchCount := s.items.length, selected := 0, offset := 0 }
  else
    { s with
      items := sortItems (fuzzy_match f pattern s.items).1,
      matchCount := (fuzzy_match f pattern s.items).2,
      selected := 0, offset := 0 }

/-- Method `clear` (lines 196-200). -/
def clear (f : Scorer) (s : FuzzyView) : FuzzyView :=
  update_list f [] { s with query := [], cursor := 0 }

/-- Method `move_left` (lines 142-150): step the cursor back over the last
grapheme cluster of the text before the cursor.  `none` models the panics of
slicing off a char boundary and of `.last().unwrap()` on an empty iterator. -/
def move_left (ext : Char → Bool) (s : FuzzyView) : Option FuzzyView :=
  if s.cursor = 0 then some s
  else
    (takeBytes s.query s.cursor).bind fun text =>
      ((graphemes ext text).getLast?).map fun g =>
        { s with cursor := s.cursor - byteLen g }

/-- Method `move_right` (lines 153-162). -/
def move_right (ext : Char → Bool) (s : FuzzyView) : Option FuzzyView :=
  if s.cursor < byteLen s.query then
    (dropBytes s.query s.cursor).bind fun rest =>
      ((graphemes ext rest).head?).map fun g =>
        { s with cursor := s.cursor + byteLen g }
  else some s

/-- Method `delete` (lines 173-185): at the end of the text it calls
`update_list("")` with the empty pattern; otherwise it drains the grapheme
cluster at the cursor and re-filters with the updated query. -/
def delete (ext : Char → Bool) (f : Scorer) (s : FuzzyView) : Option FuzzyView :=
  if s.cursor = byteLen s.query then some (update_list f [] s)
  else if s.cursor < byteLen s.query then
    (takeBytes s.query s.cursor).bind fun pre =>
      (dropBytes s.query s.cursor).bind fun rest =>
        ((graphemes ext rest).head?).map fun g =>
          let q := pre ++ rest.drop g.length
          update_list f q { s with query := q }
  else some s

/-- Method `backspace` (lines 165-170): move left, then delete. -/
def backspace (ext : Char → Bool) (f : Scorer) (s : FuzzyView) : Option FuzzyView :=
  if 0 < s.cursor then (move_left ext s).bind (delete ext f) else some s

/-- Method `insert` (lines 188-193): splice the char in at the cursor,
advance the cursor by its encoded width, re-filter. -/
def insert (f : Scorer) (ch : Char) (s : FuzzyView) : Option FuzzyView :=
  (takeBytes s.query s.cursor).bind fun pre =>
    (dropBytes s.query s.cursor).map fun rest =>
      let q := pre ++ ch :: rest
      update_list f q { s with query := q, cursor := s.cursor + ch.utf8Size }

/-- Keybinding `Key::Home` (line 450). -/
def home (s : FuzzyView) : FuzzyView := { s with cursor := 0 }

/-- Keybinding `Key::End` (line 451). -/
def endOfText (s : FuzzyView) : FuzzyView := { s with cursor := byteLen s.query }

/-- Method `random_page` (lines 123-139), with the successive results of
`utils::random(0..pages)` supplied as `draws`.  `fault` models the
division-by-zero panic of `items.len() / available_y`; `needDraw` means the
supplied draws were exhausted while the code would keep retrying. -/
inductive PageResult where
  | fault
  | needDraw
  | ok (s : FuzzyView)
deriving DecidableEq

def random_page (f : Scorer) (s : FuzzyView) : List Nat → PageResult
  | [] =>
    if s.items.length ≤ s.available_y then .ok s
    else if s.available_y = 0 then .fault
    else .needDraw
  | page :: rest =>
    if s.items.length ≤ s.available_y then .ok s
    else if s.available_y = 0 then .fault
    else if page * s.available_y = s.offset then random_page f s rest
    else
      let s1 := clear f s
      .ok { s1 with offset := page * s.available_y, selected := page * s.available_y }

/-- Outcome of committing a selection, from `on_select` (lines 248-275):
`notice` is the "Nothing to select!" error view with no navigation;
`faultIndex` is the out-of-bounds panic of `items[selected]`;
`faultCatalog` is the panic of `create_items(..).expect("should always exist")`;
`player` hands the item off to `select_player`; `navigate` replaces the view
with a fresh navigator over the child catalog. -/
inductive SelectOutcome where
  | notice
  | faultIndex
  | faultCatalog
  | player (it : FuzzyItem)
  | navigate (its : List FuzzyItem)
deriving DecidableEq

/-- Method `on_select` (lines 248-275), with the external catalog builder
`create_items` supplied as `ci`. -/
def on_select (ci : String → Except Unit (List FuzzyItem)) (s : FuzzyView) :
    SelectOutcome :=
  if s.items = [] then .notice
  else
    match s.items[s.selected]? with
    | none => .faultIndex
    | some item =>
      if item.child_count = 0 then .player item
      else
        match ci item.path with
        | .error _ => .faultCatalog
        | .ok its =>
          if its.length = 1 then
            match its.head? with
            | some only =>
              if only.has_audio && only.child_count = 0 then .player only
              else .navigate its
            | none => .navigate its
          else .navigate its

/-- Result of a left-button press, from `mouse_select` (lines 277-292). -/
inductive MouseResult where
  | outside (s : FuzzyView)
  | moved (s : FuzzyView)
  | activated (r : SelectOutcome) (s : FuzzyView)
deriving DecidableEq

/-- Method `mouse_select` (lines 277-292). -/
def mouse_select (ci : String → Except Unit (List FuzzyItem)) (mouse_y : Nat)
    (s : FuzzyView) : MouseResult :=
  if mouse_y < 1 ∨ s.available_y + 1 < mouse_y then .outside s
  else
    if s.available_y + 1 + s.offset - mouse_y = s.selected then .activated (on_select ci s) s
    else .moved { s with selected := s.available_y + 1 + s.offset - mouse_y }

end FuzzyView

/-- Playback session handle, standing for `player::Player` as used by
`app.rs`; only its path is relevant to the navigation claims. -/
structure Player where
  path : String
deriving DecidableEq

/-- Loop body of `App::new_random_search` (app.rs lines 153-170), with the
successive results of `get_random_path` supplied as the draw list: a draw
equal to the current path is rejected without construction, a successful
construction stops the loop, a failed construction is rejected. -/
def random_loop (build : String → Option Player) (curr : String) :
    List String → Option Player
  | [] => none
  | p :: rest =>
    if p = curr then random_loop build curr rest
    else
      match build p with
      | some pl => some pl
      | none => random_loop build curr rest

/-- Method `App::new_random_search` (app.rs lines 145-171): up to 10 loop
iterations, each consuming one random draw; `none` means no view change. -/
def new_random_search (searchable : Bool) (build : String → Option Player)
    (curr : String) (draws : List String) : Option Player :=
  if searchable then random_loop build curr (draws.take 10) else none

/-- History update in `load_player` (app.rs lines 174-180): append the path,
evict index 0 once the length exceeds 2. -/
def push_path (paths : List String) (p : String) : List String :=
  let l := paths ++ [p]
  if 2 < l.length then l.drop 1 else l

/-- Lookup in `previous_search` (app.rs lines 190-195): index 0 of the
history, unconditionally. -/
def previous_path (paths : List String) : Option String := paths.head?

/-- History seeding in `App::init_player` (app.rs lines 90-111): dummy entry,
first activation's push, then the fixup that duplicates the last path and
removes index 0.  `none` models the `expect("path set on init")` panic. -/
def init_history (activated : String) : Option (List String) :=
  let seeded := push_path [""] activated
  match seeded.getLast? with
  | none => none
  | some lastP => some ((seeded ++ [lastP]).drop 1)

/-! Concrete fixtures used by counterexamples and witnesses. -/

/-- Playable leaf item labelled `a`. -/
def itemA : FuzzyItem := ⟨['a'], "a", true, 0, 1, []⟩

/-- Playable leaf item labelled `b`. -/
def itemB : FuzzyItem := ⟨['b'], "b", true, 0, 1, []⟩

/-- Directory item (three children) labelled `d`. -/
def itemDir : FuzzyItem := ⟨['d'], "d", false, 3, 1, []⟩

/-- Leaf item whose weight is `0` (excluded from the current filtered view). -/
def itemW0 : FuzzyItem := ⟨['a'], "a", true, 0, 0, []⟩

/-- Scorer that matches nothing (satisfies the §4.4 contract). -/
def scorerNone : Scorer := fun _ _ => none

/-- Deterministic scorer for the two-item fixture, mirroring
`SkimMatcherV2::fuzzy_indices` on the inputs that appear below: an empty
pattern matches every label with weight `0` and no indices; pattern `a`
matches label `a` with weight `1` at index `0` and does not match `b`. -/
def scorerAB : Scorer := fun d p =>
  if p = [] then some (0, [])
  else if d = ['a'] && p = ['a'] then some (1, [0]) else none

/-- Catalog builder that always fails. -/
def catalogFail : String → Except Unit (List FuzzyItem) := fun _ => .error ()

/-- Grapheme-extend predicate for plain ASCII text: nothing extends. -/
def extNone : Char → Bool := fun _ => false

/-- Combining acute accent U+0301, a Grapheme_Extend character (2 UTF-8 bytes). -/
def cmb : Char := Char.ofNat 769

/-- Grapheme-extend predicate whose extend set is exactly U+0301, agreeing
with `unicode_segmentation` on text over `a`/`b`/U+0301. -/
def extCmb : Char → Bool := fun c => c == cmb

/-- Navigator state with one weight-0 item: the filtered set is empty
(`matchCount = 0`) but the item list is not, as after typing query `z`
over the singleton catalog. -/
def stNoMatch : FuzzyView := ⟨['z'], 1, 0, 0, 0, [itemW0], 0, (0, 0)⟩

/-- Navigator over one item laid out on a 2-row terminal (`available_y = 0`). -/
def stRows2 : FuzzyView := FuzzyView.layout (10, 2) (FuzzyView.new [itemA])

/-- Navigator with `selected = offset = 1` strictly inside a 3-match list. -/
def stSelEqOff : FuzzyView := ⟨[], 0, 1, 1, 3, [itemA, itemB, itemA], 2, (0, 0)⟩

/-- Navigator over the singleton directory catalog. -/
def stDir : FuzzyView := ⟨[], 0, 0, 0, 1, [itemDir], 0, (0, 0)⟩

/-- Navigator over a directory catalog of two entries, selection on the
directory. -/
def stDir2 : FuzzyView := ⟨[], 0, 0, 0, 2, [itemDir, itemA], 0, (0, 0)⟩

/-- Fresh navigator over two items laid out on a 13-row terminal
(`available_y = 10`). -/
def stTwo : FuzzyView := FuzzyView.layout (80, 13) (FuzzyView.new [itemA, itemB])

/-- State `stTwo` after the pointer press at row 1 moved the selection. -/
def stTwoMoved : FuzzyView := { stTwo with selected := 10 }

/-! C1 -/

/-- C1, counterexample: a navigator state with `matchCount = 0` but a
non-empty item list, on which committing does not surface the
"nothing to select" notice — it hands the hidden weight-0 item to the
player instead, because `on_select` tests `items.is_empty()`, not
`matches == 0`. -/
theorem c1_counterexample :
    stNoMatch.matchCount = 0 ∧ stNoMatch.items ≠ [] ∧
    FuzzyView.on_select catalogFail stNoMatch ≠ .notice ∧
    FuzzyView.on_select catalogFail stNoMatch = .player itemW0 := by
  decide

/-- C1, amended: committing surfaces the "nothing to select" notice and takes
no navigation action exactly when the underlying item list is empty; whenever
the item list is non-empty — even with `matchCount = 0` — the notice is not
surfaced. -/
theorem c1_amended (ci : String → Except Unit (List FuzzyItem)) (s : FuzzyView) :
    (s.items = [] → FuzzyView.on_select ci s = .notice)
    ∧ (s.items ≠ [] → FuzzyView.on_select ci s ≠ .notice) := by
  constructor
  · intro h
    simp [FuzzyView.on_select, h]
  · intro h hcontra
    unfold FuzzyView.on_select at hcontra
    rw [if_neg h] at hcontra
    repeat' split at hcontra
    all_goals simp_all

/-- C1, witness for the amended theorem at concrete inputs. -/
theorem c1_amended_witness :
    FuzzyView.on_select catalogFail (FuzzyView.new []) = .notice ∧
    FuzzyView.on_select catalogFail stNoMatch ≠ .notice :=
  ⟨(c1_amended catalogFail (FuzzyView.new [])).1 rfl,
   (c1_amended catalogFail stNoMatch).2 (by decide)⟩

/-! C2 -/

/-- C2, evaluation at the failing input: from the fresh two-item navigator,
typing `a` yields one match with the cursor at the end of the text; pressing
delete there calls `update_list("")`, which rescores every item against the
empty pattern, so the match count changes from 1 to 2 (and every weight is
replaced by the empty-pattern score) even though the query text is unchanged —
contradicting the claim that the re-evaluation leaves weights, match count and
ordering identical. -/
theorem c2_bug :
    (FuzzyView.insert scorerAB 'a' (FuzzyView.new [itemA, itemB])).map
        (fun s => (s.query, s.cursor, byteLen s.query, s.matchCount)) =
      some (['a'], 1, 1, 1)
    ∧ ((FuzzyView.insert scorerAB 'a' (FuzzyView.new [itemA, itemB])).bind
        (FuzzyView.delete extNone scorerAB)).map
          (fun s => (s.query, s.matchCount, s.items.map FuzzyItem.weight)) =
      some (['a'], 2, [0, 0]) := by
  decide

/-! C3 -/

/-- C3, evaluation at the failing input: on a 2-row terminal
(`available_y = 0`) over a non-empty item list, `page_up` and `page_down`
are indeed no-ops, but `random_page` reaches `items.len() / available_y`
and faults (division by zero) instead of being a no-op. -/
theorem c3_bug :
    stRows2.available_y = 0 ∧ stRows2.items ≠ []
    ∧ FuzzyView.page_up stRows2 = stRows2
    ∧ FuzzyView.page_down stRows2 = stRows2
    ∧ FuzzyView.random_page scorerNone stRows2 [0] = .fault := by
  decide

/-! C5 -/

/-- C5, counterexample: committing on a directory item whose child catalog
fails to build does not leave the current view unchanged — the
`create_items(..).expect("should always exist")` call aborts the process. -/
theorem c5_counterexample :
    itemDir.child_count ≠ 0 ∧
    FuzzyView.on_select catalogFail stDir = .faultCatalog ∧
    FuzzyView.on_select catalogFail stDir ≠ .notice := by
  decide

/-- C5, amended: committing on a directory item whose child catalog fails to
build is fatal — the construction is asserted to succeed (`expect`), so the
failure aborts the process rather than being recovered by leaving the current
view unchanged. -/
theorem c5_amended (ci : String → Except Unit (List FuzzyItem)) (s : FuzzyView)
    (it : FuzzyItem) (h : s.items ≠ []) (hget : s.items[s.selected]? = some it)
    (hc : it.child_count ≠ 0) (hci : ci it.path = .error ()) :
    FuzzyView.on_select ci s = .faultCatalog := by
  unfold FuzzyView.on_select
  rw [if_neg h, hget]
  simp only [if_neg hc]
  rw [hci]

/-- C5, witness for the amended theorem at concrete inputs. -/
theorem c5_amended_witness : FuzzyView.on_select catalogFail stDir2 = .faultCatalog :=
  c5_amended catalogFail stDir2 itemDir (by decide) (by decide) (by decide) rfl

/-! C6 -/

/-- C6, counterexample: from the non-boundary state with
`selected = offset = 1`, `matchCount = 3`, `available_y = 2`, moving down and
then up returns `selected` to 1 but leaves `offset` at 0, not the original 1 —
the claimed round trip fails precisely on the `selected = offset` states the
claim includes. -/
theorem c6_counterexample :
    0 < stSelEqOff.selected ∧ stSelEqOff.selected < stSelEqOff.matchCount - 1
    ∧ stSelEqOff.selected = stSelEqOff.offset
    ∧ (FuzzyView.move_up (FuzzyView.move_down stSelEqOff)).map
        (fun s => (s.selected, s.offset)) = some (1, 0)
    ∧ stSelEqOff.offset = 1 := by
  decide

/-- C6, amended: for every navigator state with a non-boundary selection
(`0 < selected < matchCount − 1`) that sits strictly above the bottom of the
scroll window but within it (`offset < selected ≤ offset + available_y`),
moving down and then up returns both `selected` and `offset` to their original
values; when `selected = offset` the down move scrolls `offset` down and the
up move does not scroll it back. -/
theorem c6_amended (s : FuzzyView) (h1 : 0 < s.selected)
    (h2 : s.selected < s.matchCount - 1) (h3 : s.offset < s.selected)
    (h4 : s.selected - s.offset ≤ s.available_y) :
    FuzzyView.move_up (FuzzyView.move_down s) = some s := by
  obtain ⟨q, cur, sel, off, m, its, ay, sz⟩ := s
  unfold FuzzyView.move_down FuzzyView.move_up
  dsimp only at *
  split_ifs <;> simp_all <;> omega

/-- C6, witness for the amended theorem at concrete inputs. -/
theorem c6_amended_witness :
    FuzzyView.move_up (FuzzyView.move_down (FuzzyView.layout (80, 13)
      ⟨[], 0, 2, 1, 4, [itemA, itemB, itemA, itemB], 0, (0, 0)⟩)) =
    some (FuzzyView.layout (80, 13)
      ⟨[], 0, 2, 1, 4, [itemA, itemB, itemA, itemB], 0, (0, 0)⟩) :=
  c6_amended _ (by decide) (by decide) (by decide) (by decide)

/-! C7 -/

/-- Unfolding equation for a non-empty draw list. -/
theorem random_loop_cons (build : String → Option Player) (curr p : String)
    (rest : List String) :
    random_loop build curr (p :: rest) =
      if p = curr then random_loop build curr rest
      else
        match build p with
        | some pl => some pl
        | none => random_loop build curr rest := rfl

/-- Rejecting every draw leaves the loop without a result. -/
theorem random_loop_all_rejected (build : String → Option Player) (curr : String) :
    ∀ l : List String, (∀ p ∈ l, p = curr ∨ build p = none) →
      random_loop build curr l = none := by
  intro l
  induction l with
  | nil => intro _; rfl
  | cons p rest ih =>
    intro h
    rw [random_loop_cons]
    have hrest : random_loop build curr rest = none :=
      ih fun q hq => h q (by simp [hq])
    rcases h p (by simp) with hp | hp
    · rw [if_pos hp, hrest]
    · by_cases hpc : p = curr
      · rw [if_pos hpc, hrest]
      · rw [if_neg hpc, hp, hrest]

/-- The first successful construction stops the loop with that player. -/
theorem random_loop_first_success (build : String → Option Player) (curr : String)
    (p : String) (l2 : List String) (pl : Player) :
    ∀ l1 : List String, (∀ q ∈ l1, q = curr ∨ build q = none) → p ≠ curr →
      build p = some pl → random_loop build curr (l1 ++ p :: l2) = some pl := by
  intro l1
  induction l1 with
  | nil =>
    intro _ hp hb
    rw [List.nil_append, random_loop_cons, if_neg hp, hb]
  | cons q rest ih =>
    intro h hp hb
    rw [List.cons_append, random_loop_cons]
    have htail := ih (fun r hr => h r (by simp [hr])) hp hb
    rcases h q (by simp) with hq | hq
    · rw [if_pos hq, htail]
    · by_cases hqc : q = curr
      · rw [if_pos hqc, htail]
      · rw [if_neg hqc, hq, htail]

/-- C7: the sampler consumes at most the first 10 draws; a draw equal to the
current path or a failed construction is a rejection, and if every one of the
(at most) 10 consumed draws is rejected the sampler yields no change
regardless of the builder; the first draw that differs from the current path
and builds successfully stops the loop and activates that player. -/
theorem c7_sampler (build : String → Option Player) (curr : String)
    (draws : List String) :
    (new_random_search true build curr draws
        = random_loop build curr (draws.take 10))
    ∧ ((∀ p ∈ draws.take 10, p = curr ∨ build p = none) →
        new_random_search true build curr draws = none)
    ∧ (∀ l1 p l2 pl, draws.take 10 = l1 ++ p :: l2 →
        (∀ q ∈ l1, q = curr ∨ build q = none) → p ≠ curr → build p = some pl →
        new_random_search true build curr draws = some pl) := by
  refine ⟨rfl, fun h => ?_, fun l1 p l2 pl hsplit h hp hb => ?_⟩
  · exact random_loop_all_rejected build curr _ h
  · show random_loop build curr (draws.take 10) = some pl
    rw [hsplit]
    exact random_loop_first_success build curr p l2 pl l1 h hp hb

/-- C7, witness: a directory count of 1 whose single path always draws equal
to the current one exhausts all 10 attempts and changes nothing, for any
builder; and a first differing draw that builds successfully activates it. -/
theorem c7_sampler_witness :
    new_random_search true (fun _ => none) "x" (List.replicate 12 "x") = none
    ∧ new_random_search true (fun p => some ⟨p⟩) "x" ["x", "y"] = some ⟨"y"⟩ :=
  ⟨(c7_sampler (fun _ => none) "x" (List.replicate 12 "x")).2.1 (by decide),
   (c7_sampler (fun p => some ⟨p⟩) "x" ["x", "y"]).2.2 ["x"] "y" [] ⟨"y"⟩
     (by decide) (by decide) (by decide) rfl⟩

/-! C8 -/

/-- C8: the first activation seeds the history with two copies of the
activated path (the dummy entry is evicted), `previous` then returns that
path; from any 2-element history, `push` appends at the end and evicts
index 0, keeping the length at exactly 2 with index 0 the previous path and
the last the current one. -/
theorem c8_history (p a b q : String) :
    init_history p = some [p, p]
    ∧ previous_path [p, p] = some p
    ∧ push_path [a, b] q = [b, q]
    ∧ (push_path [a, b] q).length = 2
    ∧ previous_path (push_path [a, b] q) = some b := by
  refine ⟨?_, rfl, ?_, ?_, ?_⟩ <;> simp [init_history, push_path, previous_path]

/-! C10 -/

/-- C10, evaluation at the failing input: on the fresh two-item navigator
with `available_y = 10`, a pointer press at the in-range row 1 sets
`selected` to 10, far past the last item; committing from that state indexes
`items[10]` out of bounds and faults, refuting the claimed bounds
invariant. -/
theorem c10_bug :
    stTwo.items.length = 2
    ∧ FuzzyView.mouse_select catalogFail 1 stTwo = .moved stTwoMoved
    ∧ stTwoMoved.selected = 10
    ∧ stTwoMoved.items.length = 2
    ∧ FuzzyView.on_select catalogFail stTwoMoved = .faultIndex := by
  decide

/-! C9 — the stable sort and re-filter idempotence. -/

/-- Inserting an item yields a permutation of consing it. -/
theorem insertItem_perm (x : FuzzyItem) (l : List FuzzyItem) :
    (FuzzyView.insertItem x l).Perm (x :: l) := by
  induction l with
  | nil => simp [FuzzyView.insertItem]
  | cons y ys ih =>
    unfold FuzzyView.insertItem
    split
    · exact (List.Perm.cons y ih).trans (List.Perm.swap x y ys)
    · exact List.Perm.refl _

/-- The stable sort permutes the items. -/
theorem sortItems_perm (l : List FuzzyItem) : (FuzzyView.sortItems l).Perm l := by
  induction l with
  | nil => simp [FuzzyView.sortItems]
  | cons x xs ih =>
    exact (insertItem_perm x (FuzzyView.sortItems xs)).trans (List.Perm.cons x ih)

/-- Insertion preserves the weight-descending ordering. -/
theorem pairwise_insertItem (x : FuzzyItem) (l : List FuzzyItem)
    (h : l.Pairwise (fun a b => b.weight ≤ a.weight)) :
    (FuzzyView.insertItem x l).Pairwise (fun a b => b.weight ≤ a.weight) := by
  induction l with
  | nil => simp [FuzzyView.insertItem]
  | cons y ys ih =>
    unfold FuzzyView.insertItem
    rcases List.pairwise_cons.mp h with ⟨hy, hys⟩
    split
    · refine List.pairwise_cons.mpr ⟨?_, ih hys⟩
      intro z hz
      rcases List.mem_cons.mp ((insertItem_perm x ys).mem_iff.mp hz) with hzx | hzys
      · subst hzx; omega
      · exact hy z hzys
    · refine List.pairwise_cons.mpr ⟨?_, h⟩
      intro z hz
      rcases List.mem_cons.mp hz with hzy | hzys
      · subst hzy; omega
      · have := hy z hzys; omega

/-- The stable sort orders the items by weight descending. -/
theorem sortItems_sorted (l : List FuzzyItem) :
    (FuzzyView.sortItems l).Pairwise (fun a b => b.weight ≤ a.weight) := by
  induction l with
  | nil => simp [FuzzyView.sortItems]
  | cons x xs ih => exact pairwise_insertItem x _ ih

/-- Sorting a list already in weight-descending order changes nothing. -/
theorem sortItems_of_sorted (l : List FuzzyItem)
    (h : l.Pairwise (fun a b => b.weight ≤ a.weight)) :
    FuzzyView.sortItems l = l := by
  induction l with
  | nil => rfl
  | cons x xs ih =>
    rcases List.pairwise_cons.mp h with ⟨hx, hxs⟩
    show FuzzyView.insertItem x (FuzzyView.sortItems xs) = x :: xs
    rw [ih hxs]
    cases xs with
    | nil => rfl
    | cons y ys =>
      unfold FuzzyView.insertItem
      rw [if_neg]
      have := hx y (by simp)
      omega

/-- Items of any fixed weight keep their relative order across an
insertion. -/
theorem filter_insertItem (w : Int) (x : FuzzyItem) (l : List FuzzyItem) :
    (FuzzyView.insertItem x l).filter (fun it => it.weight == w) =
      if x.weight == w then x :: l.filter (fun it => it.weight == w)
      else l.filter (fun it => it.weight == w) := by
  induction l with
  | nil =>
    by_cases hxw : x.weight = w <;> simp [FuzzyView.insertItem, hxw]
  | cons y ys ih =>
    unfold FuzzyView.insertItem
    by_cases hlt : x.weight < y.weight
    · rw [if_pos hlt]
      by_cases hxw : x.weight = w
      · have hyw : ¬ (y.weight = w) := by omega
        simp [List.filter_cons, hxw, hyw, ih]
      · simp [List.filter_cons, hxw, ih]
    · rw [if_neg hlt]
      by_cases hxw : x.weight = w <;> simp [List.filter_cons, hxw]

/-- Stability of the sort: the items carrying any fixed weight appear in the
sorted list in exactly the order they had before the sort. -/
theorem sortItems_filter (w : Int) (l : List FuzzyItem) :
    (FuzzyView.sortItems l).filter (fun it => it.weight == w) =
      l.filter (fun it => it.weight == w) := by
  induction l with
  | nil => rfl
  | cons x xs ih =>
    show (FuzzyView.insertItem x (FuzzyView.sortItems xs)).filter _ = _
    rw [filter_insertItem, List.filter_cons, ih]

/-- Rescoring leaves the display label untouched. -/
theorem scoreItem_display (f : Scorer) (pat : List Char) (it : FuzzyItem) :
    (FuzzyView.scoreItem f pat it).display = it.display := by
  unfold FuzzyView.scoreItem
  split <;> rfl

/-- Rescoring an already rescored item changes nothing: the score is a pure
function of the (unchanged) display and pattern. -/
theorem scoreItem_idem (f : Scorer) (pat : List Char) (it : FuzzyItem) :
    FuzzyView.scoreItem f pat (FuzzyView.scoreItem f pat it) =
      FuzzyView.scoreItem f pat it := by
  unfold FuzzyView.scoreItem
  cases h : f it.display pat with
  | none => simp [h]
  | some wi => cases wi with | mk wt idx => simp [h]

/-- Mapping a function that fixes every element of a list is the identity. -/
theorem map_eq_self_of {α : Type} (g : α → α) :
    ∀ l : List α, (∀ x ∈ l, g x = x) → l.map g = l := by
  intro l
  induction l with
  | nil => intro _; rfl
  | cons x xs ih =>
    intro h
    rw [List.map_cons, h x (by simp), ih fun y hy => h y (by simp [hy])]

/-- C9: the re-filter's sort is stable — items of equal (in particular equal
nonzero) weight keep, after the sort by weight descending, the relative order
they had before it — and consequently running `update_list` a second time
with the unchanged query produces the identical item ordering and the
identical match count. -/
theorem c9_stable_refilter (f : Scorer) (pat : List Char) (s : FuzzyView)
    (l : List FuzzyItem) (w : Int) (_hw : w ≠ 0) :
    ((FuzzyView.sortItems l).filter (fun it => it.weight == w)
        = l.filter (fun it => it.weight == w))
    ∧ (FuzzyView.update_list f pat (FuzzyView.update_list f pat s)).items
        = (FuzzyView.update_list f pat s).items
    ∧ (FuzzyView.update_list f pat (FuzzyView.update_list f pat s)).matchCount
        = (FuzzyView.update_list f pat s).matchCount := by
  refine ⟨sortItems_filter w l, ?_⟩
  by_cases hq : s.query = []
  · constructor <;> simp [FuzzyView.update_list, hq]
  · have hq1 : (FuzzyView.update_list f pat s).query = s.query := by
      simp [FuzzyView.update_list, hq]
    have hL : (FuzzyView.update_list f pat s).items =
        FuzzyView.sortItems (s.items.map (FuzzyView.scoreItem f pat)) := by
      simp [FuzzyView.update_list, hq, FuzzyView.fuzzy_match]
    have hfix : ∀ x ∈ (FuzzyView.update_list f pat s).items,
        FuzzyView.scoreItem f pat x = x := by
      intro x hx
      rw [hL] at hx
      have hx2 : x ∈ s.items.map (FuzzyView.scoreItem f pat) :=
        (sortItems_perm _).mem_iff.mp hx
      rcases List.mem_map.mp hx2 with ⟨y, _, hyx⟩
      rw [← hyx, scoreItem_idem]
    have hmapfix : (FuzzyView.update_list f pat s).items.map
        (FuzzyView.scoreItem f pat) = (FuzzyView.update_list f pat s).items :=
      map_eq_self_of _ _ hfix
    have hsorted : FuzzyView.sortItems (FuzzyView.update_list f pat s).items
        = (FuzzyView.update_list f pat s).items := by
      rw [hL]
      exact sortItems_of_sorted _ (sortItems_sorted _)
    constructor
    · conv_lhs => rw [FuzzyView.update_list, if_neg (hq1 ▸ hq)]
      simp only [FuzzyView.fuzzy_match, hmapfix, hsorted]
    · conv_lhs => rw [FuzzyView.update_list, if_neg (hq1 ▸ hq)]
      simp only [FuzzyView.fuzzy_match]
      have hcount : List.countP (fun it => (f it.display pat).isSome)
          (FuzzyView.update_list f pat s).items =
          List.countP (fun it => (f it.display pat).isSome) s.items := by
        rw [hL]
        rw [(sortItems_perm _).countP_eq (fun it => (f it.display pat).isSome)]
        rw [List.countP_map]
        refine List.countP_congr ?_
        intro it _
        simp [Function.comp, scoreItem_display]
      rw [hcount]
      simp [FuzzyView.update_list, hq, FuzzyView.fuzzy_match]

/-- C9, witness at concrete inputs: sorting the two-weight-1 fixture items
keeps their order, and re-filtering twice with pattern `a` over the fixture
catalog equals re-filtering once. -/
theorem c9_stable_refilter_witness :
    (FuzzyView.sortItems [itemA, itemB]).filter (fun it => it.weight == 1)
        = [itemA, itemB].filter (fun it => it.weight == 1)
    ∧ (FuzzyView.update_list scorerAB ['a']
        (FuzzyView.update_list scorerAB ['a'] stNoMatch)).items
        = (FuzzyView.update_list scorerAB ['a'] stNoMatch).items :=
  ⟨(c9_stable_refilter scorerAB ['a'] stNoMatch [itemA, itemB] 1 (by decide)).1,
   (c9_stable_refilter scorerAB ['a'] stNoMatch [itemA, itemB] 1 (by decide)).2.1⟩

/-! C4 — byte-offset boundary toolkit. -/

/-- A zero byte offset is the empty prefix. -/
theorem takeBytes_zero (l : List Char) : takeBytes l 0 = some [] := by
  cases l <;> rfl

/-- Byte length of a cons. -/
theorem byteLen_cons (c : Char) (cs : List Char) :
    byteLen (c :: cs) = c.utf8Size + byteLen cs := by
  simp [byteLen]

/-- Byte length distributes over append. -/
theorem byteLen_append (l1 l2 : List Char) :
    byteLen (l1 ++ l2) = byteLen l1 + byteLen l2 := by
  simp [byteLen]

/-- Unfolding equation of `takeBytes` at a positive offset. -/
theorem takeBytes_cons_succ (c : Char) (cs : List Char) (n : Nat) :
    takeBytes (c :: cs) (n + 1) =
      if c.utf8Size ≤ n + 1 then
        (takeBytes cs (n + 1 - c.utf8Size)).map (fun t => c :: t)
      else none := rfl

/-- Unfolding equation of `dropBytes` at a positive offset. -/
theorem dropBytes_cons_succ (c : Char) (cs : List Char) (n : Nat) :
    dropBytes (c :: cs) (n + 1) =
      if c.utf8Size ≤ n + 1 then dropBytes cs (n + 1 - c.utf8Size)
      else none := rfl

/-- Taking exactly the bytes of a prefix, plus `n` more, steps over the
prefix. -/
theorem takeBytes_append_add (l1 l2 : List Char) (n : Nat) :
    takeBytes (l1 ++ l2) (byteLen l1 + n) =
      (takeBytes l2 n).map (fun t => l1 ++ t) := by
  induction l1 with
  | nil =>
    show takeBytes l2 (0 + n) = _
    rw [Nat.zero_add]
    cases takeBytes l2 n <;> simp
  | cons c cs ih =>
    have hpos := Char.utf8Size_pos c
    rw [List.cons_append, byteLen_cons]
    obtain ⟨m, hm⟩ : ∃ m, c.utf8Size + byteLen cs + n = m + 1 :=
      ⟨c.utf8Size + byteLen cs + n - 1, by omega⟩
    rw [hm, takeBytes_cons_succ, if_pos (by omega)]
    rw [show m + 1 - c.utf8Size = byteLen cs + n from by omega, ih]
    cases takeBytes l2 n <;> simp

/-- Dropping exactly the bytes of a prefix, plus `n` more, steps over the
prefix. -/
theorem dropBytes_append_add (l1 l2 : List Char) (n : Nat) :
    dropBytes (l1 ++ l2) (byteLen l1 + n) = dropBytes l2 n := by
  induction l1 with
  | nil =>
    show dropBytes l2 (0 + n) = _
    rw [Nat.zero_add]
  | cons c cs ih =>
    have hpos := Char.utf8Size_pos c
    rw [List.cons_append, byteLen_cons]
    obtain ⟨m, hm⟩ : ∃ m, c.utf8Size + byteLen cs + n = m + 1 :=
      ⟨c.utf8Size + byteLen cs + n - 1, by omega⟩
    rw [hm, dropBytes_cons_succ, if_pos (by omega)]
    rw [show m + 1 - c.utf8Size = byteLen cs + n from by omega, ih]

/-- The byte length of a prefix is always a valid take offset. -/
theorem takeBytes_append_self (l1 l2 : List Char) :
    takeBytes (l1 ++ l2) (byteLen l1) = some l1 := by
  have h := takeBytes_append_add l1 l2 0
  rw [Nat.add_zero] at h
  rw [h, takeBytes_zero]
  simp

/-- The byte length of a prefix is always a valid drop offset. -/
theorem dropBytes_append_self (l1 l2 : List Char) :
    dropBytes (l1 ++ l2) (byteLen l1) = some l2 := by
  have h := dropBytes_append_add l1 l2 0
  rw [Nat.add_zero] at h
  rw [h]
  cases l2 <;> rfl

/-- Every prefix byte length is a char boundary. -/
theorem charBoundary_append (l1 l2 : List Char) :
    charBoundary (l1 ++ l2) (byteLen l1) := by
  rw [charBoundary, takeBytes_append_self]
  rfl

/-- Inversion: a successful `takeBytes` splits the text at the offset, and
`dropBytes` succeeds with the complementary suffix. -/
theorem takeBytes_inv :
    ∀ (q : List Char) (n : Nat) (pre : List Char), takeBytes q n = some pre →
      byteLen pre = n ∧ ∃ suf, q = pre ++ suf ∧ dropBytes q n = some suf := by
  intro q
  induction q with
  | nil =>
    intro n pre h
    cases n with
    | zero =>
      rw [takeBytes_zero] at h
      cases h
      exact ⟨rfl, [], rfl, rfl⟩
    | succ m => cases h
  | cons c cs ih =>
    intro n pre h
    cases n with
    | zero =>
      rw [takeBytes_zero] at h
      cases h
      exact ⟨rfl, c :: cs, rfl, rfl⟩
    | succ m =>
      rw [takeBytes_cons_succ] at h
      by_cases hle : c.utf8Size ≤ m + 1
      · rw [if_pos hle] at h
        cases htb : takeBytes cs (m + 1 - c.utf8Size) with
        | none => rw [htb] at h; cases h
        | some pre' =>
          rw [htb] at h
          simp only [Option.map_some', Option.some.injEq] at h
          obtain ⟨hb, suf, hcs, hd⟩ := ih _ _ htb
          subst h
          refine ⟨by rw [byteLen_cons, hb]; omega, suf, by rw [hcs]; rfl, ?_⟩
          rw [dropBytes_cons_succ, if_pos hle]
          exact hd
      · rw [if_neg hle] at h
        cases h

/-- A char boundary yields the concrete split of the text. -/
theorem charBoundary_elim {q : List Char} {n : Nat} (h : charBoundary q n) :
    ∃ pre suf, q = pre ++ suf ∧ byteLen pre = n ∧
      takeBytes q n = some pre ∧ dropBytes q n = some suf := by
  unfold charBoundary at h
  cases htb : takeBytes q n with
  | none => rw [htb] at h; cases h
  | some pre =>
    obtain ⟨hb, suf, hq, hd⟩ := takeBytes_inv q n pre htb
    exact ⟨pre, suf, hq, hb, rfl, hd⟩

/-- Segmentation concatenates back to the original text. -/
theorem graphemes_flatten_le (ext : Char → Bool) :
    ∀ (k : Nat) (q : List Char), q.length ≤ k → (graphemes ext q).flatten = q := by
  intro k
  induction k with
  | zero =>
    intro q hq
    have : q = [] := List.length_eq_zero.mp (Nat.le_zero.mp hq)
    subst this
    rfl
  | succ k ih =>
    intro q hq
    cases q with
    | nil => rfl
    | cons c cs =>
      rw [graphemes_cons, List.flatten_cons]
      have hlen := (List.dropWhile_sublist (l := cs) ext).length_le
      simp only [List.length_cons] at hq
      rw [ih _ (by omega)]
      rw [List.cons_append, List.takeWhile_append_dropWhile]

/-- Segmentation concatenates back to the original text. -/
theorem graphemes_flatten (ext : Char → Bool) (q : List Char) :
    (graphemes ext q).flatten = q :=
  graphemes_flatten_le ext q.length q le_rfl

/-- Re-filtering never touches the query text. -/
theorem update_list_query (f : Scorer) (pattern : List Char) (s : FuzzyView) :
    (FuzzyView.update_list f pattern s).query = s.query := by
  unfold FuzzyView.update_list
  split <;> rfl

/-- Re-filtering never touches the cursor. -/
theorem update_list_cursor (f : Scorer) (pattern : List Char) (s : FuzzyView) :
    (FuzzyView.update_list f pattern s).cursor = s.cursor := by
  unfold FuzzyView.update_list
  split <;> rfl

/-- Insertion succeeds from a char boundary and lands on one. -/
theorem insert_boundary (f : Scorer) (ch : Char) (s : FuzzyView)
    (h : charBoundary s.query s.cursor) :
    ∃ s', FuzzyView.insert f ch s = some s' ∧ charBoundary s'.query s'.cursor := by
  obtain ⟨pre, suf, hq, hblen, htake, hdrop⟩ := charBoundary_elim h
  unfold FuzzyView.insert
  rw [htake, Option.some_bind, hdrop, Option.map_some']
  refine ⟨_, rfl, ?_⟩
  rw [update_list_query, update_list_cursor]
  show charBoundary (pre ++ ch :: suf) (s.cursor + ch.utf8Size)
  have h1 : pre ++ ch :: suf = (pre ++ [ch]) ++ suf := by simp
  have h2 : s.cursor + ch.utf8Size = byteLen (pre ++ [ch]) := by
    rw [byteLen_append, ← hblen]
    simp [byteLen]
  rw [h1, h2]
  exact charBoundary_append _ _

/-- Moving left succeeds from a char boundary and lands on one. -/
theorem move_left_boundary (ext : Char → Bool) (s : FuzzyView)
    (h : charBoundary s.query s.cursor) :
    ∃ s', FuzzyView.move_left ext s = some s' ∧ charBoundary s'.query s'.cursor := by
  by_cases h0 : s.cursor = 0
  · refine ⟨s, ?_, h⟩
    unfold FuzzyView.move_left
    rw [if_pos h0]
  · obtain ⟨pre, suf, hq, hblen, htake, hdrop⟩ := charBoundary_elim h
    have hpre_ne : pre ≠ [] := by
      intro hnil
      subst hnil
      exact h0 hblen.symm
    obtain ⟨c, cs, hpc⟩ : ∃ c cs, pre = c :: cs := by
      cases pre with
      | nil => exact absurd rfl hpre_ne
      | cons c cs => exact ⟨c, cs, rfl⟩
    have hgne : graphemes ext pre ≠ [] := by
      rw [hpc, graphemes_cons]
      simp
    obtain ⟨g, hg⟩ : ∃ g, (graphemes ext pre).getLast? = some g := by
      cases hgl : (graphemes ext pre).getLast? with
      | none => exact absurd (List.getLast?_eq_none_iff.mp hgl) hgne
      | some g => exact ⟨g, rfl⟩
    obtain ⟨gs, hgs⟩ := List.getLast?_eq_some_iff.mp hg
    have hpre_split : pre = gs.flatten ++ g := by
      conv_lhs => rw [← graphemes_flatten ext pre]
      rw [hgs, List.flatten_append]
      simp
    unfold FuzzyView.move_left
    rw [if_neg h0, htake, Option.some_bind, hg, Option.map_some']
    refine ⟨_, rfl, ?_⟩
    show charBoundary s.query (s.cursor - byteLen g)
    have hcur : s.cursor - byteLen g = byteLen gs.flatten := by
      rw [← hblen, hpre_split, byteLen_append]
      omega
    rw [hcur, hq, hpre_split, List.append_assoc]
    exact charBoundary_append _ _

/-- Moving right succeeds from a char boundary and lands on one. -/
theorem move_right_boundary (ext : Char → Bool) (s : FuzzyView)
    (h : charBoundary s.query s.cursor) :
    ∃ s', FuzzyView.move_right ext s = some s' ∧ charBoundary s'.query s'.cursor := by
  by_cases hlt : s.cursor < byteLen s.query
  · obtain ⟨pre, suf, hq, hblen, htake, hdrop⟩ := charBoundary_elim h
    have hsuf_ne : suf ≠ [] := by
      intro hnil
      subst hnil
      rw [hq, byteLen_append] at hlt
      have hz : byteLen ([] : List Char) = 0 := rfl
      omega
    obtain ⟨c, cs, hsc⟩ : ∃ c cs, suf = c :: cs := by
      cases suf with
      | nil => exact absurd rfl hsuf_ne
      | cons c cs => exact ⟨c, cs, rfl⟩
    have hgr : graphemes ext suf =
        (c :: cs.takeWhile ext) :: graphemes ext (cs.dropWhile ext) := by
      rw [hsc, graphemes_cons]
    unfold FuzzyView.move_right
    rw [if_pos hlt, hdrop, Option.some_bind, hgr]
    simp only [List.head?_cons, Option.map_some']
    refine ⟨_, rfl, ?_⟩
    show charBoundary s.query (s.cursor + byteLen (c :: cs.takeWhile ext))
    have hsufg : suf = (c :: cs.takeWhile ext) ++
        (graphemes ext (cs.dropWhile ext)).flatten := by
      conv_lhs => rw [← graphemes_flatten ext suf]
      rw [hgr, List.flatten_cons]
    have hc : s.cursor + byteLen (c :: cs.takeWhile ext)
        = byteLen (pre ++ (c :: cs.takeWhile ext)) := by
      rw [byteLen_append, hblen]
    rw [hc, hq, hsufg, ← List.append_assoc]
    exact charBoundary_append _ _
  · refine ⟨s, ?_, h⟩
    unfold FuzzyView.move_right
    rw [if_neg hlt]

/-- Deletion succeeds from a char boundary and lands on one. -/
theorem delete_boundary (ext : Char → Bool) (f : Scorer) (s : FuzzyView)
    (h : charBoundary s.query s.cursor) :
    ∃ s', FuzzyView.delete ext f s = some s' ∧ charBoundary s'.query s'.cursor := by
  by_cases hEnd : s.cursor = byteLen s.query
  · refine ⟨FuzzyView.update_list f [] s, ?_, ?_⟩
    · unfold FuzzyView.delete
      rw [if_pos hEnd]
    · rw [update_list_query, update_list_cursor]
      exact h
  · by_cases hlt : s.cursor < byteLen s.query
    · obtain ⟨pre, suf, hq, hblen, htake, hdrop⟩ := charBoundary_elim h
      have hsuf_ne : suf ≠ [] := by
        intro hnil
        subst hnil
        rw [hq, byteLen_append] at hlt
        have hz : byteLen ([] : List Char) = 0 := rfl
        omega
      obtain ⟨c, cs, hsc⟩ : ∃ c cs, suf = c :: cs := by
        cases suf with
        | nil => exact absurd rfl hsuf_ne
        | cons c cs => exact ⟨c, cs, rfl⟩
      have hgr : graphemes ext suf =
          (c :: cs.takeWhile ext) :: graphemes ext (cs.dropWhile ext) := by
        rw [hsc, graphemes_cons]
      unfold FuzzyView.delete
      rw [if_neg hEnd, if_pos hlt, htake, Option.some_bind, hdrop, Option.some_bind, hgr]
      simp only [List.head?_cons, Option.map_some']
      refine ⟨_, rfl, ?_⟩
      rw [update_list_query, update_list_cursor]
      show charBoundary (pre ++ suf.drop (c :: cs.takeWhile ext).length) s.cursor
      have hsufg : suf = (c :: cs.takeWhile ext) ++
          (graphemes ext (cs.dropWhile ext)).flatten := by
        conv_lhs => rw [← graphemes_flatten ext suf]
        rw [hgr, List.flatten_cons]
      have hdropg : suf.drop (c :: cs.takeWhile ext).length
          = (graphemes ext (cs.dropWhile ext)).flatten := by
        conv_lhs => rw [hsufg]
        exact List.drop_left _ _
      rw [hdropg, ← hblen]
      exact charBoundary_append _ _
    · refine ⟨s, ?_, h⟩
      unfold FuzzyView.delete
      rw [if_neg hEnd, if_neg hlt]

/-- Backspace succeeds from a char boundary and lands on one. -/
theorem backspace_boundary (ext : Char → Bool) (f : Scorer) (s : FuzzyView)
    (h : charBoundary s.query s.cursor) :
    ∃ s', FuzzyView.backspace ext f s = some s' ∧ charBoundary s'.query s'.cursor := by
  by_cases h0 : 0 < s.cursor
  · obtain ⟨s1, hm, hb1⟩ := move_left_boundary ext s h
    obtain ⟨s2, hd, hb2⟩ := delete_boundary ext f s1 hb1
    refine ⟨s2, ?_, hb2⟩
    unfold FuzzyView.backspace
    rw [if_pos h0, hm, Option.some_bind]
    exact hd
  · refine ⟨s, ?_, h⟩
    unfold FuzzyView.backspace
    rw [if_neg h0]

/-- The home key lands on a char boundary. -/
theorem home_boundary (s : FuzzyView) :
    charBoundary (FuzzyView.home s).query (FuzzyView.home s).cursor := by
  show charBoundary s.query 0
  rw [charBoundary, takeBytes_zero]
  rfl

/-- The end key lands on a char boundary. -/
theorem endOfText_boundary (s : FuzzyView) :
    charBoundary (FuzzyView.endOfText s).query (FuzzyView.endOfText s).cursor := by
  show charBoundary s.query (byteLen s.query)
  simpa using charBoundary_append s.query []

/-- Clearing the query lands on a char boundary. -/
theorem clear_boundary (f : Scorer) (s : FuzzyView) :
    charBoundary (FuzzyView.clear f s).query (FuzzyView.clear f s).cursor := by
  unfold FuzzyView.clear
  rw [update_list_query, update_list_cursor]
  show charBoundary [] 0
  rw [charBoundary, takeBytes_zero]
  rfl

/-- Query text holding just the combining mark, cursor at its start. -/
def stCmb : FuzzyView := ⟨[cmb], 0, 0, 0, 1, [], 0, (0, 0)⟩

/-- Query text `a` followed by the combining mark, cursor at the end. -/
def stAcute : FuzzyView := ⟨['a', cmb], 3, 0, 0, 1, [], 0, (0, 0)⟩

/-- C4, counterexample: with the query holding just the combining mark
U+0301 and the cursor at offset 0 — a grapheme boundary — inserting `a`
advances the cursor to byte offset 1, which is inside the single grapheme
cluster `a`+U+0301 of the new text (its boundaries are 0 and 3): `insert`
does not preserve the grapheme-cluster boundary invariant, only the char
boundary one. -/
theorem c4_counterexample :
    graphemeBoundary extCmb stCmb.query stCmb.cursor
    ∧ charBoundary stCmb.query stCmb.cursor
    ∧ (FuzzyView.insert scorerNone 'a' stCmb).map (fun s => (s.query, s.cursor))
        = some (['a', cmb], 1)
    ∧ graphemeOffsets extCmb ['a', cmb] = [0, 3]
    ∧ ¬ graphemeBoundary extCmb ['a', cmb] 1
    ∧ charBoundary ['a', cmb] 1 := by
  decide

/-- C4, amended: for every query text and cursor position on a char
(code point) boundary, every text-editing and cursor operation — insert,
backspace, delete, move left, move right, home, end, clear — succeeds
without faulting and leaves the cursor on a char boundary of the resulting
query; the stronger grapheme-cluster version of the invariant is broken by
`insert` when the insertion point directly precedes an extending (combining)
character. -/
theorem c4_amended (ext : Char → Bool) (f : Scorer) (ch : Char) (s : FuzzyView)
    (h : charBoundary s.query s.cursor) :
    (∃ s', FuzzyView.insert f ch s = some s' ∧ charBoundary s'.query s'.cursor)
    ∧ (∃ s', FuzzyView.backspace ext f s = some s' ∧ charBoundary s'.query s'.cursor)
    ∧ (∃ s', FuzzyView.delete ext f s = some s' ∧ charBoundary s'.query s'.cursor)
    ∧ (∃ s', FuzzyView.move_left ext s = some s' ∧ charBoundary s'.query s'.cursor)
    ∧ (∃ s', FuzzyView.move_right ext s = some s' ∧ charBoundary s'.query s'.cursor)
    ∧ charBoundary (FuzzyView.home s).query (FuzzyView.home s).cursor
    ∧ charBoundary (FuzzyView.endOfText s).query (FuzzyView.endOfText s).cursor
    ∧ charBoundary (FuzzyView.clear f s).query (FuzzyView.clear f s).cursor :=
  ⟨insert_boundary f ch s h, backspace_boundary ext f s h, delete_boundary ext f s h,
   move_left_boundary ext s h, move_right_boundary ext s h, home_boundary s,
   endOfText_boundary s, clear_boundary f s⟩

/-- C4, witness for the amended theorem at a concrete multi-byte input. -/
theorem c4_amended_witness :
    charBoundary (FuzzyView.home stAcute).query (FuzzyView.home stAcute).cursor
    ∧ charBoundary (FuzzyView.endOfText stAcute).query
        (FuzzyView.endOfText stAcute).cursor
    ∧ charBoundary (FuzzyView.clear scorerNone stAcute).query
        (FuzzyView.clear scorerNone stAcute).cursor :=
  ⟨(c4_amended extCmb scorerNone 'a' stAcute (by decide)).2.2.2.2.2.1,
   (c4_amended extCmb scorerNone 'a' stAcute (by decide)).2.2.2.2.2.2.1,
   (c4_amended extCmb scorerNone 'a' stAcute (by decide)).2.2.2.2.2.2.2⟩
